import Mathlib

/-!
Verification of the gotalk-dictation audio core: the pure-Go FLAC verbatim
encoder (internal/speech/flac.go) and the voice-activity-detection session
(bufferWithVAD in internal/speech). Go byte/uint16 arithmetic is embedded as
Nat with explicit % 256 / % 65536 at the points where the Go code performs a
machine-width conversion; a Go slice index out of range (a runtime panic) is
embedded as an Option returning none.
-/

namespace Gotalk

/-! ## FLAC encoder constants (flac.go) -/

def flacSampleRate : ℕ := 16000

def flacBPS : ℕ := 16

/-- Samples per frame (the last frame may be smaller). -/
def flacBlockSize : ℕ := 4096

/-! ## flacUTF8Int: FLAC's UTF-8-like variable-length integer coding.
Direct translation of flacUTF8Int; Go byte(x) is x % 256, x>>k is x >>> k,
x&0x3F is x &&& 0x3F, | is |||. -/

def flacUTF8Int (v : ℕ) : List ℕ :=
  if v < 0x80 then
    [v % 256]
  else if v < 0x800 then
    [0xC0 ||| ((v >>> 6) % 256), 0x80 ||| (v &&& 0x3F)]
  else if v < 0x10000 then
    [0xE0 ||| ((v >>> 12) % 256), 0x80 ||| ((v >>> 6) &&& 0x3F), 0x80 ||| (v &&& 0x3F)]
  else if v < 0x200000 then
    [0xF0 ||| ((v >>> 18) % 256), 0x80 ||| ((v >>> 12) &&& 0x3F),
     0x80 ||| ((v >>> 6) &&& 0x3F), 0x80 ||| (v &&& 0x3F)]
  else
    [0xF8 ||| ((v >>> 24) % 256), 0x80 ||| ((v >>> 18) &&& 0x3F),
     0x80 ||| ((v >>> 12) &&& 0x3F), 0x80 ||| ((v >>> 6) &&& 0x3F),
     0x80 ||| (v &&& 0x3F)]

/-- Modelled from the spec (refinement reference for the variable-length
integer claim): a decoder for the UTF-8 continuation-byte pattern the spec
says the encoding follows — lead byte 0xxxxxxx / 110xxxxx / 1110xxxx /
11110xxx / 111110xx, each continuation byte 10xxxxxx contributing 6 bits. -/
def utf8DecodeSpec (bs : List ℕ) : Option ℕ :=
  let cont : ℕ → Option ℕ := fun b => if 0x80 ≤ b ∧ b < 0xC0 then some (b % 64) else none
  match bs with
  | [a] => if a < 0x80 then some a else none
  | [a, b] =>
    if 0xC0 ≤ a ∧ a < 0xE0 then
      (cont b).map (fun vb => (a % 32) * 2 ^ 6 + vb)
    else none
  | [a, b, c] =>
    if 0xE0 ≤ a ∧ a < 0xF0 then
      match cont b, cont c with
      | some vb, some vc => some ((a % 16) * 2 ^ 12 + vb * 2 ^ 6 + vc)
      | _, _ => none
    else none
  | [a, b, c, d] =>
    if 0xF0 ≤ a ∧ a < 0xF8 then
      match cont b, cont c, cont d with
      | some vb, some vc, some vd => some ((a % 8) * 2 ^ 18 + vb * 2 ^ 12 + vc * 2 ^ 6 + vd)
      | _, _, _ => none
    else none
  | [a, b, c, d, e] =>
    if 0xF8 ≤ a ∧ a < 0xFC then
      match cont b, cont c, cont d, cont e with
      | some vb, some vc, some vd, some ve =>
        some ((a % 4) * 2 ^ 24 + vb * 2 ^ 18 + vc * 2 ^ 12 + vd * 2 ^ 6 + ve)
      | _, _, _, _ => none
    else none
  | _ => none

/-! ## CRC tables and routines (flac.go init/flacCRC8/flacCRC16).
The Go init loop body is one shift-xor round in byte / uint16 arithmetic. -/

/-- One round of the CRC-8 table generator: v = (v<<1)^0x07 when the top bit
is set, else v<<1, in byte arithmetic. -/
def crc8Round (v : ℕ) : ℕ :=
  if v &&& 0x80 ≠ 0 then ((v <<< 1) ^^^ 0x07) % 256 else (v <<< 1) % 256

/-- crc8Table[i]: eight rounds starting from byte(i). -/
def crc8Table (i : ℕ) : ℕ := crc8Round^[8] (i % 256)

/-- One round of the CRC-16 table generator: v = (v<<1)^0x8005 when the top
bit is set, else v<<1, in uint16 arithmetic. -/
def crc16Round (v : ℕ) : ℕ :=
  if v &&& 0x8000 ≠ 0 then ((v <<< 1) ^^^ 0x8005) % 65536 else (v <<< 1) % 65536

/-- crc16Table[i]: eight rounds starting from uint16(i) << 8. -/
def crc16Table (i : ℕ) : ℕ := crc16Round^[8] (((i % 65536) <<< 8) % 65536)

/-- flacCRC8: crc = crc8Table[crc^b] over the data, starting from 0. -/
def flacCRC8 (data : List ℕ) : ℕ :=
  data.foldl (fun crc b => crc8Table (crc ^^^ b)) 0

/-- flacCRC16: crc = crc16Table[byte(crc>>8)^b] ^ (crc<<8) over the data,
starting from 0, in uint16 arithmetic. -/
def flacCRC16 (data : List ℕ) : ℕ :=
  data.foldl (fun crc b => crc16Table (((crc >>> 8) % 256) ^^^ b) ^^^ ((crc <<< 8) % 65536)) 0

/-! ## Frame encoding (flacEncodeFrame). -/

/-- The verbatim-subframe sample loop of flacEncodeFrame:
for i := 0; i < len(pcm); i += 2 { out = append(out, pcm[i+1], pcm[i]) }.
When the slice has odd length the final iteration reads pcm[i+1] one past the
end — an index-out-of-range panic in Go — embedded here as none. -/
def swapPairs : List ℕ → Option (List ℕ)
  | [] => some []
  | [_] => none
  | a :: b :: rest => (swapPairs rest).map (fun sw => b :: a :: sw)

/-- The frame-header bytes flacEncodeFrame accumulates before the CRC-8 byte:
sync 0xFF 0xF8, then blocksize code <<4 | samplerate code 0, then the
channel/bps byte 0, then the UTF-8-coded frame number, then — for the final
short frame only — the explicit 16-bit big-endian (blockSize - 1).
uint16(nSamples-1) is computed through ℤ to keep Go's conversion semantics
at nSamples = 0 (Go int subtraction then uint16 truncation). -/
def flacFrameHdrPre (frameNum totalSamples nSamples : ℕ) : List ℕ :=
  let isLastShort := (frameNum + 1) * flacBlockSize > totalSamples ∧ nSamples ≠ flacBlockSize
  let bsCode : ℕ := if isLastShort then 0x07 else 0x0C
  [0xFF, 0xF8, (bsCode <<< 4) ||| 0x00, 0x00] ++ flacUTF8Int frameNum ++
    (if isLastShort then
      [((((nSamples : ℤ) - 1) % 65536).toNat) >>> 8 % 256,
       (((nSamples : ℤ) - 1) % 65536).toNat % 256]
    else [])

/-- flacEncodeFrame frameNum totalSamples pcm: one FLAC frame with a VERBATIM
subframe, or none when the Go code would panic on an odd-length pcm slice. -/
def flacEncodeFrame (frameNum totalSamples : ℕ) (pcm : List ℕ) : Option (List ℕ) :=
  let nSamples := pcm.length / 2
  let hdrB := flacFrameHdrPre frameNum totalSamples nSamples
  -- CRC-8 of the header bytes so far
  let hdr : List ℕ := hdrB ++ [flacCRC8 hdrB]
  -- subframe: type byte 0x02 (VERBATIM), then samples re-emitted big-endian
  match swapPairs pcm with
  | none => none
  | some sw =>
    let frameData := hdr ++ (0x02 :: sw)
    let crc16 := flacCRC16 frameData
    some (frameData ++ [(crc16 >>> 8) % 256, crc16 % 256])

/-! ## Stream header and whole-stream encoding (flacStreamInfo, pcmToFLACNative). -/

/-- flacStreamInfo: the 34-byte STREAMINFO payload. -/
def flacStreamInfo (totalSamples : ℕ) : List ℕ :=
  let sr := flacSampleRate
  let bpsM1 := flacBPS - 1
  let ts := totalSamples
  [(flacBlockSize >>> 8) % 256, flacBlockSize % 256,   -- min blocksize, big-endian
   (flacBlockSize >>> 8) % 256, flacBlockSize % 256,   -- max blocksize
   0, 0, 0, 0, 0, 0,                                   -- min/max framesize unknown
   (sr >>> 12) % 256,                                  -- sr[19:12]
   (sr >>> 4) % 256,                                   -- sr[11:4]
   (((sr &&& 0xF) <<< 4) % 256) ||| 0 ||| ((bpsM1 >>> 4) % 256),
   (((bpsM1 &&& 0xF) <<< 4) % 256) ||| ((ts >>> 32) % 256),
   ((ts % 2 ^ 32) >>> 24) % 256, ((ts % 2 ^ 32) >>> 16) % 256,
   ((ts % 2 ^ 32) >>> 8) % 256, (ts % 2 ^ 32) % 256,   -- ts[31:0], big-endian
   0, 0, 0, 0, 0, 0, 0, 0, 0, 0, 0, 0, 0, 0, 0, 0]    -- MD5 left zero

/-- The byte values of the magic "fLaC". -/
def flacMagic : List ℕ := [0x66, 0x4C, 0x61, 0x43]

/-- METADATA_BLOCK_HEADER: last-block=1, type=STREAMINFO(0), length=34. -/
def flacMetaHdr : List ℕ := [0x80, 0x00, 0x00, 0x22]

/-- The frame loop of pcmToFLACNative: for each frame number fn, encode the
slice pcm[fn*blockSize*2 : fn*blockSize*2 + blockSize*2] (clipped at the end
of pcm). none as soon as one frame panics. -/
def flacFrames (pcm : List ℕ) (totalSamples : ℕ) : List ℕ → Option (List (List ℕ))
  | [] => some []
  | fn :: rest =>
    match flacEncodeFrame fn totalSamples ((pcm.drop (fn * (flacBlockSize * 2))).take (flacBlockSize * 2)),
          flacFrames pcm totalSamples rest with
    | some f, some fs => some (f :: fs)
    | _, _ => none

/-- pcmToFLACNative: magic, metadata header, STREAMINFO, then the frames.
The Go loop runs for frameNum = 0, 1, ... while frameNum*blockSize < nSamples,
i.e. exactly for frameNum < ⌈nSamples / blockSize⌉. -/
def pcmToFLACNative (pcm : List ℕ) : Option (List ℕ) :=
  let nSamples := pcm.length / 2
  let numFrames := (nSamples + (flacBlockSize - 1)) / flacBlockSize
  match flacFrames pcm nSamples (List.range numFrames) with
  | none => none
  | some frames => some (flacMagic ++ flacMetaHdr ++ flacStreamInfo nSamples ++ frames.flatten)

/-! ## Voice activity detection (bufferWithVAD).

The Go function consumes a channel of PCM chunks, computing rms := calcRMS(chunk)
for each. calcRMS is a float64 sqrt of a mean of squares; the VAD logic only ever
compares rms (and sums of rms values) against a threshold, so a chunk is embedded
as its payload paired with its RMS energy as an exact rational, and the float64
threshold arithmetic (mean, multiply, floor at 150) is carried out in ℚ. -/

/-- A PCM chunk together with its RMS energy (the value calcRMS returns for it). -/
structure Chunk where
  data : List ℕ
  rms : ℚ
  deriving DecidableEq

/-- The phase values of the bufferWithVAD state machine. -/
inductive Phase where
  | calibrating
  | waitingSpeech
  | inSpeech
  deriving DecidableEq

/-- The local state of bufferWithVAD's loop. -/
structure VADState where
  cur : Phase
  calibCount : ℕ
  calibSum : ℚ
  threshold : ℚ
  speechCount : ℕ
  silCount : ℕ
  preRoll : List Chunk
  result : List ℕ
  deriving DecidableEq

/-- The zero-valued state the Go loop starts from. -/
def vadInit : VADState :=
  { cur := Phase.calibrating, calibCount := 0, calibSum := 0, threshold := 0,
    speechCount := 0, silCount := 0, preRoll := [], result := [] }

/-- Caller configuration: silenceEndChunks := r.silenceChunks(),
thresholdMul := r.sensitivity(). -/
structure VADConfig where
  silenceEndChunks : ℕ
  thresholdMul : ℚ
  deriving DecidableEq

/-- calibChunks: ambient-calibration window, in chunks. -/
def calibChunks : ℕ := 4

/-- minSpeechChunks: consecutive loud chunks confirming speech onset. -/
def minSpeechChunks : ℕ := 2

/-- preRollLen: chunks buffered before onset to avoid clipping. -/
def preRollLen : ℕ := 4

/-- The pre-roll update of the waitingSpeech case:
preRoll = append(preRoll, chunk); if len(preRoll) > preRollLen, drop the oldest. -/
def trimPreRoll (pr : List Chunk) (c : Chunk) : List Chunk :=
  if (pr ++ [c]).length > preRollLen then (pr ++ [c]).drop 1 else pr ++ [c]

/-- One iteration of bufferWithVAD's switch on the current phase, for a received
chunk. Sum.inl is the next state; Sum.inr is the successful early return of the
accumulated buffer (the silence-end path). -/
def vadStep (cfg : VADConfig) (st : VADState) (c : Chunk) : VADState ⊕ List ℕ :=
  match st.cur with
  | Phase.calibrating =>
    let calibCount := st.calibCount + 1
    let calibSum := st.calibSum + c.rms
    if calibCount ≥ calibChunks then
      let ambient := calibSum / (calibCount : ℚ)
      let threshold := ambient * cfg.thresholdMul
      let threshold := if threshold < 150 then (150 : ℚ) else threshold
      Sum.inl { st with cur := Phase.waitingSpeech, calibCount := calibCount,
                        calibSum := calibSum, threshold := threshold }
    else
      Sum.inl { st with calibCount := calibCount, calibSum := calibSum }
  | Phase.waitingSpeech =>
    let pr := trimPreRoll st.preRoll c
    if c.rms > st.threshold then
      let speechCount := st.speechCount + 1
      if speechCount ≥ minSpeechChunks then
        -- onset: flush the pre-roll contents (chronological) into result
        Sum.inl { st with cur := Phase.inSpeech,
                          result := st.result ++ (pr.map Chunk.data).flatten,
                          preRoll := [], speechCount := 0 }
      else
        Sum.inl { st with preRoll := pr, speechCount := speechCount }
    else
      Sum.inl { st with preRoll := pr, speechCount := 0 }
  | Phase.inSpeech =>
    let result := st.result ++ c.data
    if c.rms ≤ st.threshold then
      let silCount := st.silCount + 1
      if silCount ≥ cfg.silenceEndChunks then
        Sum.inr result
      else
        Sum.inl { st with result := result, silCount := silCount }
    else
      Sum.inl { st with result := result, silCount := 0 }

/-- Stepping vadStep through a list of chunks, with the early silence-end return. -/
def runVadChunks (cfg : VADConfig) (st : VADState) : List Chunk → VADState ⊕ List ℕ
  | [] => Sum.inl st
  | c :: cs =>
    match vadStep cfg st c with
    | Sum.inl st' => runVadChunks cfg st' cs
    | Sum.inr res => Sum.inr res

/-- One observable event of bufferWithVAD's select loop: either the cancellation
signal fires, or a chunk arrives. The end of the event list is the channel
closing (received ok = false). -/
inductive VEvent where
  | cancel
  | chunk (c : Chunk)
  deriving DecidableEq

/-- The chunk payloads of an event list, in order. -/
def chunksOf (evs : List VEvent) : List Chunk :=
  evs.filterMap (fun e => match e with | VEvent.cancel => none | VEvent.chunk c => some c)

/-- bufferWithVAD's loop: returns the accumulated buffer and whether a non-nil
error was returned. The Go function returns (result, ctx.Err()) when the
cancellation signal is observed — a non-nil error — (result, nil) when the
channel closes, and (result, nil) on the silence-end return. -/
def bufferWithVAD (cfg : VADConfig) : VADState → List VEvent → List ℕ × Bool
  | st, [] => (st.result, false)
  | st, VEvent.cancel :: _ => (st.result, true)
  | st, VEvent.chunk c :: rest =>
    match vadStep cfg st c with
    | Sum.inl st' => bufferWithVAD cfg st' rest
    | Sum.inr res => (res, false)

/-! ## Concrete sample values used by witnesses -/

/-- A sample configuration: silence-end after 2 quiet chunks, sensitivity 2.5. -/
def sampleCfg : VADConfig := { silenceEndChunks := 2, thresholdMul := 5 / 2 }

/-- A state as reached right after calibration: waiting for speech, threshold 150. -/
def sampleWaiting : VADState :=
  { cur := Phase.waitingSpeech, calibCount := 4, calibSum := 240, threshold := 150,
    speechCount := 0, silCount := 0, preRoll := [], result := [] }

/-- A state inside speech with an accumulated byte and threshold 150. -/
def sampleInSpeech : VADState :=
  { cur := Phase.inSpeech, calibCount := 4, calibSum := 240, threshold := 150,
    speechCount := 0, silCount := 0, preRoll := [], result := [9] }

/-- A loud sample chunk (RMS 400 > 150). -/
def loudChunk : Chunk := { data := [5], rms := 400 }

/-- A second loud sample chunk. -/
def loud2Chunk : Chunk := { data := [7], rms := 500 }

/-- A quiet sample chunk (RMS 100 ≤ 150). -/
def quietChunk : Chunk := { data := [6], rms := 100 }

/-- sampleInSpeech with one quiet chunk already counted. -/
def sampleInSpeechSil1 : VADState := { sampleInSpeech with silCount := 1 }

/-- A calibrating state with three chunks (total RMS 300) already summed. -/
def sampleCalib3 : VADState := { vadInit with calibCount := 3, calibSum := 300 }

/-- The last n chunks of a list, in order: the trimmed pre-roll window. -/
def takeLast (n : ℕ) (l : List Chunk) : List Chunk := l.drop (l.length - n)

/-- The reachability invariant of the VAD loop, relative to the chunks consumed
so far: no output while calibrating or waiting; the pre-roll is a suffix of the
chunks seen, starting no earlier than the calibration window; once in speech,
the output is the flattened data of a suffix of the seen chunks starting at or
after index calibChunks. -/
def VADInv (st : VADState) (seen : List Chunk) : Prop :=
  (st.cur = Phase.calibrating → st.result = [] ∧ st.preRoll = [] ∧
    st.calibCount = seen.length) ∧
  (st.cur = Phase.waitingSpeech → st.result = [] ∧
    ∃ k, calibChunks ≤ k ∧ k ≤ seen.length ∧ st.preRoll = seen.drop k) ∧
  (st.cur = Phase.inSpeech → ∃ i, calibChunks ≤ i ∧ i ≤ seen.length ∧
    st.result = ((seen.drop i).map Chunk.data).flatten)


/-! ## Helper lemmas: the verbatim sample loop and frame totality -/

theorem swapPairs_isSome_of_even : ∀ (l : List ℕ), l.length % 2 = 0 → (swapPairs l).isSome := by
  intro l
  induction l using swapPairs.induct with
  | case1 => intro _; rfl
  | case2 a => intro h; simp at h
  | case3 a b rest ih =>
    intro h
    have h2 : rest.length % 2 = 0 := by simp [List.length_cons, Nat.add_mod] at h; omega
    rcases Option.isSome_iff_exists.mp (ih h2) with ⟨sw, hsw⟩
    simp [swapPairs, hsw]

theorem swapPairs_eq_some_of_even (l : List ℕ) (h : l.length % 2 = 0) :
    ∃ sw, swapPairs l = some sw :=
  Option.isSome_iff_exists.mp (swapPairs_isSome_of_even l h)

theorem flacEncodeFrame_isSome (fn t : ℕ) (pcm : List ℕ) (h : pcm.length % 2 = 0) :
    (flacEncodeFrame fn t pcm).isSome := by
  obtain ⟨sw, hsw⟩ := swapPairs_eq_some_of_even pcm h
  simp [flacEncodeFrame, hsw]

theorem flacFrames_isSome (pcm : List ℕ) (t : ℕ) (h : pcm.length % 2 = 0) :
    ∀ fns : List ℕ, (flacFrames pcm t fns).isSome := by
  intro fns
  induction fns with
  | nil => rfl
  | cons fn rest ih =>
    have he : ((pcm.drop (fn * (flacBlockSize * 2))).take (flacBlockSize * 2)).length % 2 = 0 := by
      simp only [List.length_take, List.length_drop, flacBlockSize]
      omega
    obtain ⟨f, hf⟩ := Option.isSome_iff_exists.mp (flacEncodeFrame_isSome fn t _ he)
    obtain ⟨fs, hfs⟩ := Option.isSome_iff_exists.mp ih
    simp [flacFrames, hf, hfs]

/-! ## Claim C1 -/

set_option maxRecDepth 100000
set_option maxHeartbeats 1000000

/-- C1: the claim says the encoder is total, truncating an odd trailing byte and
never raising a panic. The code slips: the three-byte input [0, 0, 0] keeps its
odd trailing byte in the final frame slice, and the verbatim sample loop then
reads pcm[3] past the end of the slice — an index-out-of-range panic, embedded
as none. On every even-length input the encoder does return a complete byte
sequence. -/
theorem flac_encoder_faults_on_odd_input :
    pcmToFLACNative [0, 0, 0] = none ∧
    ∀ pcm : List ℕ, pcm.length % 2 = 0 → (pcmToFLACNative pcm).isSome := by
  constructor
  · rfl
  · intro pcm h
    obtain ⟨frames, hf⟩ := Option.isSome_iff_exists.mp
      (flacFrames_isSome pcm (pcm.length / 2) h
        (List.range ((pcm.length / 2 + (flacBlockSize - 1)) / flacBlockSize)))
    simp [pcmToFLACNative, hf]

/-- Witness for C1 at concrete inputs: the faulting odd input and one even input. -/
theorem flac_encoder_faults_on_odd_input_witness :
    pcmToFLACNative [0, 0, 0] = none ∧ (pcmToFLACNative [1, 2]).isSome :=
  ⟨flac_encoder_faults_on_odd_input.1,
   flac_encoder_faults_on_odd_input.2 [1, 2] rfl⟩

/-! ## Helper lemmas: bit-level arithmetic for the variable-length coding -/

theorem lor128_eq : ∀ x : ℕ, x < 64 → 0x80 ||| x = 0x80 + x := by decide

theorem lor192_eq : ∀ x : ℕ, x < 64 → 0xC0 ||| x = 0xC0 + x := by decide

theorem lor224_eq : ∀ x : ℕ, x < 32 → 0xE0 ||| x = 0xE0 + x := by decide

theorem lor240_eq : ∀ x : ℕ, x < 16 → 0xF0 ||| x = 0xF0 + x := by decide

theorem lor248_eq : ∀ x : ℕ, x < 8 → 0xF8 ||| x = 0xF8 + x := by decide

theorem and63_eq (v : ℕ) : v &&& 0x3F = v % 64 := by
  have := Nat.and_pow_two_sub_one_eq_mod v 6
  simpa using this

theorem shr6_eq (v : ℕ) : v >>> 6 = v / 64 := by
  rw [Nat.shiftRight_eq_div_pow]

theorem shr12_eq (v : ℕ) : v >>> 12 = v / 4096 := by
  rw [Nat.shiftRight_eq_div_pow]

theorem shr18_eq (v : ℕ) : v >>> 18 = v / 262144 := by
  rw [Nat.shiftRight_eq_div_pow]

theorem shr24_eq (v : ℕ) : v >>> 24 = v / 16777216 := by
  rw [Nat.shiftRight_eq_div_pow]

/-! ## Claim C2 -/

/-- C2 counterexample: the claim asserts a correct UTF-8-style encoding for every
v < 2^36, but the five-byte arm truncates v >> 24 to a byte and ORs it into the
0xF8 lead byte, so the two distinct 36-bit values 2^32 and 2^33 receive the same
encoding (and the UTF-8-pattern decoder reads that encoding back as 0). -/
theorem flacUTF8Int_collision_in_36_bit_range :
    (2 ^ 32 : ℕ) < 2 ^ 36 ∧ (2 ^ 33 : ℕ) < 2 ^ 36 ∧ (2 ^ 32 : ℕ) ≠ 2 ^ 33 ∧
    flacUTF8Int (2 ^ 32) = flacUTF8Int (2 ^ 33) ∧
    utf8DecodeSpec (flacUTF8Int (2 ^ 32)) = some 0 :=
  ⟨by norm_num, by norm_num, by norm_num, rfl, rfl⟩

/-- C2 (amended to the range the code actually handles): for every v < 2^26 the
encoding is a correct UTF-8-style encoding — at most 5 bytes, one byte equal to
the value below 0x80, and the UTF-8 continuation-byte pattern decodes it back to
v — and the three concrete examples of the claim hold as stated. -/
theorem flacUTF8Int_correct_below_26_bits :
    (∀ v : ℕ, v < 2 ^ 26 →
      (flacUTF8Int v).length ≤ 5 ∧ utf8DecodeSpec (flacUTF8Int v) = some v ∧
        (v < 0x80 → flacUTF8Int v = [v])) ∧
    flacUTF8Int 0 = [0x00] ∧ flacUTF8Int 0x80 = [0xC2, 0x80] ∧
    flacUTF8Int 0x10000 = [0xF0, 0x90, 0x80, 0x80] := by
  refine ⟨?_, rfl, rfl, rfl⟩
  intro v hv
  simp only [flacUTF8Int]
  split_ifs with h1 h2 h3 h4
  · refine ⟨by simp, ?_, fun _ => by rw [Nat.mod_eq_of_lt (by omega)]⟩
    rw [Nat.mod_eq_of_lt (by omega)]
    simp only [utf8DecodeSpec]
    rw [if_pos h1]
  · refine ⟨by simp, ?_, fun h => absurd h h1⟩
    rw [shr6_eq, and63_eq, Nat.mod_eq_of_lt (by omega : v / 64 < 256),
        lor192_eq _ (by omega), lor128_eq _ (by omega)]
    simp only [utf8DecodeSpec]
    rw [if_pos (by omega), if_pos (by omega)]
    simp only [Option.map_some']
    congr 1
    omega
  · refine ⟨by simp, ?_, fun h => absurd h h1⟩
    rw [shr12_eq, shr6_eq, and63_eq, and63_eq, Nat.mod_eq_of_lt (by omega : v / 4096 < 256),
        lor224_eq _ (by omega), lor128_eq _ (by omega), lor128_eq _ (by omega)]
    simp only [utf8DecodeSpec]
    rw [if_pos (by omega), if_pos (by omega), if_pos (by omega)]
    dsimp only
    congr 1
    omega
  · refine ⟨by simp, ?_, fun h => absurd h h1⟩
    rw [shr18_eq, shr12_eq, shr6_eq, and63_eq, and63_eq, and63_eq,
        Nat.mod_eq_of_lt (by omega : v / 262144 < 256),
        lor240_eq _ (by omega), lor128_eq _ (by omega), lor128_eq _ (by omega),
        lor128_eq _ (by omega)]
    simp only [utf8DecodeSpec]
    rw [if_pos (by omega), if_pos (by omega), if_pos (by omega), if_pos (by omega)]
    dsimp only
    congr 1
    omega
  · refine ⟨by simp, ?_, fun h => absurd h h1⟩
    rw [shr24_eq, shr18_eq, shr12_eq, shr6_eq, and63_eq, and63_eq, and63_eq, and63_eq,
        Nat.mod_eq_of_lt (by omega : v / 16777216 < 256),
        lor248_eq _ (by omega), lor128_eq _ (by omega), lor128_eq _ (by omega),
        lor128_eq _ (by omega), lor128_eq _ (by omega)]
    simp only [utf8DecodeSpec]
    rw [if_pos (by omega), if_pos (by omega), if_pos (by omega), if_pos (by omega),
        if_pos (by omega)]
    dsimp only
    congr 1
    omega

/-- Witness for C2's amended theorem at the concrete value 70000 < 2^26. -/
theorem flacUTF8Int_correct_below_26_bits_witness :
    (flacUTF8Int 70000).length ≤ 5 ∧ utf8DecodeSpec (flacUTF8Int 70000) = some 70000 ∧
      (70000 < 0x80 → flacUTF8Int 70000 = [70000]) :=
  flacUTF8Int_correct_below_26_bits.1 70000 (by norm_num)

/-! ## Helper lemmas: CRC-16 range and the shape of one encoded frame -/

theorem crc16Round_lt (v : ℕ) : crc16Round v < 65536 := by
  unfold crc16Round
  split_ifs <;> exact Nat.mod_lt _ (by norm_num)

theorem crc16Table_lt (i : ℕ) : crc16Table i < 65536 := by
  unfold crc16Table
  rw [show (8 : ℕ) = 7 + 1 from rfl, Function.iterate_succ_apply']
  exact crc16Round_lt _

theorem flacCRC16_lt (l : List ℕ) : flacCRC16 l < 65536 := by
  suffices H : ∀ (m : List ℕ) (acc : ℕ), acc < 65536 →
      m.foldl (fun crc b =>
        crc16Table (((crc >>> 8) % 256) ^^^ b) ^^^ ((crc <<< 8) % 65536)) acc < 65536 from
    H l 0 (by norm_num)
  intro m
  induction m with
  | nil => intro acc h; simpa using h
  | cons b rest ih =>
    intro acc h
    simp only [List.foldl_cons]
    refine ih _ ?_
    have h1 : crc16Table (((acc >>> 8) % 256) ^^^ b) < 2 ^ 16 := by
      have := crc16Table_lt (((acc >>> 8) % 256) ^^^ b)
      omega
    have h2 : (acc <<< 8) % 65536 < 2 ^ 16 := by
      have := Nat.mod_lt (acc <<< 8) (show 0 < 65536 by norm_num)
      omega
    have := Nat.xor_lt_two_pow h1 h2
    omega

theorem crc16_hi_byte (l : List ℕ) : (flacCRC16 l >>> 8) % 256 = flacCRC16 l / 256 := by
  have hc := flacCRC16_lt l
  rw [Nat.shiftRight_eq_div_pow]
  norm_num
  omega

theorem flacEncodeFrame_shape (fn t : ℕ) (pcm f : List ℕ)
    (h : flacEncodeFrame fn t pcm = some f) :
    ∃ hdr sub, f = hdr ++ [flacCRC8 hdr] ++ sub ++
      [flacCRC16 (hdr ++ [flacCRC8 hdr] ++ sub) / 256,
       flacCRC16 (hdr ++ [flacCRC8 hdr] ++ sub) % 256] := by
  cases hsw : swapPairs pcm with
  | none =>
    simp only [flacEncodeFrame, hsw] at h
    exact Option.noConfusion h
  | some sw =>
    simp only [flacEncodeFrame, hsw] at h
    obtain rfl := Option.some.inj h
    exact ⟨flacFrameHdrPre fn t (pcm.length / 2), 0x02 :: sw, by rw [crc16_hi_byte]⟩

theorem flacUTF8Int_zero : flacUTF8Int 0 = [0] := rfl

theorem flacUTF8Int_one : flacUTF8Int 1 = [1] := rfl

theorem flacUTF8Int_two : flacUTF8Int 2 = [2] := rfl

theorem flacFrameHdrPre_full (fn t : ℕ) :
    flacFrameHdrPre fn t flacBlockSize = [0xFF, 0xF8, 0xC0, 0x00] ++ flacUTF8Int fn := by
  simp [flacFrameHdrPre]

theorem flacFrameHdrPre_short (fn t n : ℕ) (hl : (fn + 1) * flacBlockSize > t)
    (h1 : 1 ≤ n) (h2 : n < flacBlockSize) :
    flacFrameHdrPre fn t n =
      [0xFF, 0xF8, 0x70, 0x00] ++ flacUTF8Int fn ++ [(n - 1) / 256, (n - 1) % 256] := by
  have h2' : n < 4096 := by simpa [flacBlockSize] using h2
  have hne : n ≠ flacBlockSize := by simp [flacBlockSize]; omega
  have hemod : ((((n : ℤ) - 1)) % 65536).toNat = n - 1 := by
    rw [Int.emod_eq_of_lt (by omega) (by omega)]
    omega
  simp only [flacFrameHdrPre, if_pos (And.intro hl hne), hemod]
  have hsh : (n - 1) >>> 8 % 256 = (n - 1) / 256 := by
    rw [Nat.shiftRight_eq_div_pow]
    norm_num
    omega
  rw [hsh]
  norm_num
  rfl

theorem flacEncodeFrame_eq (fn t : ℕ) (pcm sw : List ℕ) (hsw : swapPairs pcm = some sw) :
    flacEncodeFrame fn t pcm = some
      (flacFrameHdrPre fn t (pcm.length / 2) ++
        [flacCRC8 (flacFrameHdrPre fn t (pcm.length / 2))] ++ (0x02 :: sw) ++
        [flacCRC16 (flacFrameHdrPre fn t (pcm.length / 2) ++
            [flacCRC8 (flacFrameHdrPre fn t (pcm.length / 2))] ++ (0x02 :: sw)) / 256,
         flacCRC16 (flacFrameHdrPre fn t (pcm.length / 2) ++
            [flacCRC8 (flacFrameHdrPre fn t (pcm.length / 2))] ++ (0x02 :: sw)) % 256]) := by
  simp only [flacEncodeFrame, hsw]
  rw [crc16_hi_byte]

theorem flacFrames_mem (pcm : List ℕ) (t : ℕ) :
    ∀ (fns : List ℕ) (frames : List (List ℕ)), flacFrames pcm t fns = some frames →
      ∀ f ∈ frames, ∃ fn slice, flacEncodeFrame fn t slice = some f := by
  intro fns
  induction fns with
  | nil =>
    intro frames h f hf
    simp only [flacFrames] at h
    obtain rfl := Option.some.inj h
    simp at hf
  | cons fn rest ih =>
    intro frames h f hf
    simp only [flacFrames] at h
    cases h1 : flacEncodeFrame fn t
        ((pcm.drop (fn * (flacBlockSize * 2))).take (flacBlockSize * 2)) with
    | none => rw [h1] at h; exact Option.noConfusion h
    | some fr =>
      cases h2 : flacFrames pcm t rest with
      | none => rw [h1, h2] at h; exact Option.noConfusion h
      | some fs =>
        rw [h1, h2] at h
        obtain rfl := Option.some.inj h
        rcases List.mem_cons.mp hf with rfl | hmem
        · exact ⟨fn, _, h1⟩
        · exact ih fs h2 f hmem

/-! ## Claim C4 -/

/-- C4: every frame of every encoded output stores, right after its header
bytes, the CRC-8 (polynomial 0x07, init 0, table-driven) of exactly those
header bytes, and ends with the big-endian CRC-16 (polynomial 0x8005, init 0)
of all preceding frame bytes — header, CRC-8 byte and subframe — so
recomputing either checksum over the emitted bytes reproduces the stored
value. -/
theorem flac_frame_checksums_recompute :
    ∀ pcm out : List ℕ, pcmToFLACNative pcm = some out →
    ∃ frames : List (List ℕ),
      out = flacMagic ++ flacMetaHdr ++ flacStreamInfo (pcm.length / 2) ++ frames.flatten ∧
      ∀ f ∈ frames, ∃ hdr sub,
        f = hdr ++ [flacCRC8 hdr] ++ sub ++
          [flacCRC16 (hdr ++ [flacCRC8 hdr] ++ sub) / 256,
           flacCRC16 (hdr ++ [flacCRC8 hdr] ++ sub) % 256] := by
  intro pcm out h
  simp only [pcmToFLACNative] at h
  cases hf : flacFrames pcm (pcm.length / 2)
      (List.range ((pcm.length / 2 + (flacBlockSize - 1)) / flacBlockSize)) with
  | none => rw [hf] at h; exact Option.noConfusion h
  | some frames =>
    rw [hf] at h
    obtain rfl := Option.some.inj h
    refine ⟨frames, by simp [List.append_assoc], ?_⟩
    intro f hmem
    obtain ⟨fn, slice, henc⟩ := flacFrames_mem pcm (pcm.length / 2) _ frames hf f hmem
    exact flacEncodeFrame_shape fn (pcm.length / 2) slice f henc

/-- Witness for C4 at the concrete two-byte input [1, 2]. -/
theorem flac_frame_checksums_recompute_witness :
    ∃ frames : List (List ℕ),
      [102, 76, 97, 67, 128, 0, 0, 34, 16, 0, 16, 0, 0, 0, 0, 0, 0, 0, 3, 232, 0, 240, 0,
       0, 0, 1, 0, 0, 0, 0, 0, 0, 0, 0, 0, 0, 0, 0, 0, 0, 0, 0, 255, 248, 112, 0, 0, 0,
       0, 170, 2, 2, 1, 118, 85] =
        flacMagic ++ flacMetaHdr ++ flacStreamInfo ([1, 2].length / 2) ++ frames.flatten ∧
      ∀ f ∈ frames, ∃ hdr sub,
        f = hdr ++ [flacCRC8 hdr] ++ sub ++
          [flacCRC16 (hdr ++ [flacCRC8 hdr] ++ sub) / 256,
           flacCRC16 (hdr ++ [flacCRC8 hdr] ++ sub) % 256] :=
  flac_frame_checksums_recompute [1, 2]
    [102, 76, 97, 67, 128, 0, 0, 34, 16, 0, 16, 0, 0, 0, 0, 0, 0, 0, 3, 232, 0, 240, 0,
     0, 0, 1, 0, 0, 0, 0, 0, 0, 0, 0, 0, 0, 0, 0, 0, 0, 0, 0, 255, 248, 112, 0, 0, 0,
     0, 170, 2, 2, 1, 118, 85] rfl

/-! ## Claim C3 -/

/-- C3: a PCM buffer of exactly two full frames plus a nonempty short remainder
of r samples encodes to three frames; the final frame (sequence number 2) has
block-size code 0x7 in the upper nibble of its third byte — the explicit-size
path — followed by the 16-bit big-endian value r - 1 right after the frame
number, with the header CRC-8 immediately after it; the two full frames carry
code 0xC in that nibble and no explicit size bytes (their CRC-8 follows the
frame number directly). -/
theorem flac_final_short_frame_header :
    ∀ (pcm : List ℕ) (r : ℕ), 0 < r → r < flacBlockSize →
      pcm.length = 2 * (2 * flacBlockSize + r) →
      ∃ f0 f1 f2 : List ℕ,
        pcmToFLACNative pcm =
          some (flacMagic ++ flacMetaHdr ++ flacStreamInfo (2 * flacBlockSize + r) ++
            ([f0, f1, f2] : List (List ℕ)).flatten) ∧
        (∃ t0, f0 = [0xFF, 0xF8, 0xC0, 0x00, 0x00,
            flacCRC8 [0xFF, 0xF8, 0xC0, 0x00, 0x00]] ++ t0) ∧
        (∃ t1, f1 = [0xFF, 0xF8, 0xC0, 0x00, 0x01,
            flacCRC8 [0xFF, 0xF8, 0xC0, 0x00, 0x01]] ++ t1) ∧
        (∃ t2, f2 = [0xFF, 0xF8, 0x70, 0x00, 0x02, (r - 1) / 256, (r - 1) % 256,
            flacCRC8 [0xFF, 0xF8, 0x70, 0x00, 0x02, (r - 1) / 256, (r - 1) % 256]] ++ t2) := by
  intro pcm r hr1 hr2 hlen
  have hbs : flacBlockSize = 4096 := rfl
  have hr2' : r < 4096 := by rwa [hbs] at hr2
  have hlen' : pcm.length = 16384 + 2 * r := by rw [hbs] at hlen; omega
  have hns : pcm.length / 2 = 2 * flacBlockSize + r := by rw [hbs]; omega
  have hs0 : ((pcm.drop (0 * (flacBlockSize * 2))).take (flacBlockSize * 2)).length = 8192 := by
    simp [hbs]; omega
  have hs1 : ((pcm.drop (1 * (flacBlockSize * 2))).take (flacBlockSize * 2)).length = 8192 := by
    simp [hbs]; omega
  have hs2 : ((pcm.drop (2 * (flacBlockSize * 2))).take (flacBlockSize * 2)).length = 2 * r := by
    simp [hbs]; omega
  obtain ⟨sw0, hsw0⟩ := swapPairs_eq_some_of_even _ (by rw [hs0])
  obtain ⟨sw1, hsw1⟩ := swapPairs_eq_some_of_even _ (by rw [hs1])
  obtain ⟨sw2, hsw2⟩ := swapPairs_eq_some_of_even _ (by rw [hs2]; omega)
  have e0 := flacEncodeFrame_eq 0 (pcm.length / 2) _ sw0 hsw0
  have e1 := flacEncodeFrame_eq 1 (pcm.length / 2) _ sw1 hsw1
  have e2 := flacEncodeFrame_eq 2 (pcm.length / 2) _ sw2 hsw2
  rw [hs0] at e0
  rw [hs1] at e1
  rw [hs2] at e2
  have hd0 : (8192 : ℕ) / 2 = flacBlockSize := by rw [hbs]
  rw [hd0, flacFrameHdrPre_full, flacUTF8Int_zero] at e0
  rw [hd0, flacFrameHdrPre_full, flacUTF8Int_one] at e1
  have hd2 : 2 * r / 2 = r := by omega
  rw [hd2, flacFrameHdrPre_short 2 (pcm.length / 2) r (by rw [hns, hbs]; omega) hr1 hr2,
      flacUTF8Int_two] at e2
  simp only [List.cons_append, List.nil_append] at e0 e1 e2
  have hrange : (pcm.length / 2 + (flacBlockSize - 1)) / flacBlockSize = 3 := by
    rw [hbs]; omega
  obtain ⟨F0, e0', p0⟩ :
      ∃ F, flacEncodeFrame 0 (pcm.length / 2)
          ((pcm.drop (0 * (flacBlockSize * 2))).take (flacBlockSize * 2)) = some F ∧
        ∃ t0, F = [0xFF, 0xF8, 0xC0, 0x00, 0x00,
          flacCRC8 [0xFF, 0xF8, 0xC0, 0x00, 0x00]] ++ t0 :=
    ⟨_, e0, _, rfl⟩
  obtain ⟨F1, e1', p1⟩ :
      ∃ F, flacEncodeFrame 1 (pcm.length / 2)
          ((pcm.drop (1 * (flacBlockSize * 2))).take (flacBlockSize * 2)) = some F ∧
        ∃ t1, F = [0xFF, 0xF8, 0xC0, 0x00, 0x01,
          flacCRC8 [0xFF, 0xF8, 0xC0, 0x00, 0x01]] ++ t1 :=
    ⟨_, e1, _, rfl⟩
  obtain ⟨F2, e2', p2⟩ :
      ∃ F, flacEncodeFrame 2 (pcm.length / 2)
          ((pcm.drop (2 * (flacBlockSize * 2))).take (flacBlockSize * 2)) = some F ∧
        ∃ t2, F = [0xFF, 0xF8, 0x70, 0x00, 0x02, (r - 1) / 256, (r - 1) % 256,
          flacCRC8 [0xFF, 0xF8, 0x70, 0x00, 0x02, (r - 1) / 256, (r - 1) % 256]] ++ t2 :=
    ⟨_, e2, _, rfl⟩
  refine ⟨F0, F1, F2, ?_, p0, p1, p2⟩
  simp only [pcmToFLACNative, hrange]
  rw [show (List.range 3 : List ℕ) = [0, 1, 2] from rfl]
  simp only [flacFrames, e0', e1', e2']
  rw [hns]

/-- Witness for C3: a concrete all-zero buffer of 2 * 4096 + 1 samples. -/
theorem flac_final_short_frame_header_witness :
    ∃ f0 f1 f2 : List ℕ,
      pcmToFLACNative (List.replicate 16386 0) =
        some (flacMagic ++ flacMetaHdr ++ flacStreamInfo (2 * flacBlockSize + 1) ++
          ([f0, f1, f2] : List (List ℕ)).flatten) ∧
      (∃ t0, f0 = [0xFF, 0xF8, 0xC0, 0x00, 0x00,
          flacCRC8 [0xFF, 0xF8, 0xC0, 0x00, 0x00]] ++ t0) ∧
      (∃ t1, f1 = [0xFF, 0xF8, 0xC0, 0x00, 0x01,
          flacCRC8 [0xFF, 0xF8, 0xC0, 0x00, 0x01]] ++ t1) ∧
      (∃ t2, f2 = [0xFF, 0xF8, 0x70, 0x00, 0x02, (1 - 1) / 256, (1 - 1) % 256,
          flacCRC8 [0xFF, 0xF8, 0x70, 0x00, 0x02, (1 - 1) / 256, (1 - 1) % 256]] ++ t2) :=
  flac_final_short_frame_header (List.replicate 16386 0) 1 (by norm_num)
    (by norm_num [flacBlockSize]) (by rw [List.length_replicate]; norm_num [flacBlockSize])



theorem vadStep_waiting_quiet (cfg : VADConfig) (st : VADState) (c : Chunk)
    (hcur : st.cur = Phase.waitingSpeech) (hq : c.rms ≤ st.threshold) :
    vadStep cfg st c = Sum.inl { st with
      preRoll := trimPreRoll st.preRoll c, speechCount := 0 } := by
  simp only [vadStep, hcur]
  rw [if_neg (not_lt.mpr hq)]

theorem vadStep_waiting_loud_noOnset (cfg : VADConfig) (st : VADState) (c : Chunk)
    (hcur : st.cur = Phase.waitingSpeech) (hl : st.threshold < c.rms)
    (hcnt : st.speechCount + 1 < minSpeechChunks) :
    vadStep cfg st c = Sum.inl { st with
      preRoll := trimPreRoll st.preRoll c, speechCount := st.speechCount + 1 } := by
  simp only [vadStep, hcur]
  rw [if_pos hl, if_neg (by omega : ¬ (st.speechCount + 1 ≥ minSpeechChunks))]

theorem vadStep_waiting_onset (cfg : VADConfig) (st : VADState) (c : Chunk)
    (hcur : st.cur = Phase.waitingSpeech) (hl : st.threshold < c.rms)
    (hcnt : minSpeechChunks ≤ st.speechCount + 1) :
    vadStep cfg st c = Sum.inl { st with
      cur := Phase.inSpeech,
      result := st.result ++ ((trimPreRoll st.preRoll c).map Chunk.data).flatten,
      preRoll := [], speechCount := 0 } := by
  simp only [vadStep, hcur]
  rw [if_pos hl, if_pos hcnt]

/-- C5: in WaitingForSpeech, speech onset needs the fixed debounce count
minSpeechChunks = 2 of consecutive chunks with RMS strictly above the
threshold: a chunk at or below threshold resets the consecutive-loud counter
to zero, so from a reset counter one loud chunk followed by a quiet one never
triggers onset (the machine is back to waiting with counter zero), while two
consecutive loud chunks transition to InSpeech. -/
theorem vad_onset_debounce :
    ∀ (cfg : VADConfig) (st : VADState) (c c1 c2 : Chunk),
      st.cur = Phase.waitingSpeech →
      (c.rms ≤ st.threshold →
        ∃ st', vadStep cfg st c = Sum.inl st' ∧ st'.cur = Phase.waitingSpeech ∧
          st'.speechCount = 0) ∧
      (st.speechCount = 0 → st.threshold < c1.rms → c2.rms ≤ st.threshold →
        ∃ st1 st2, vadStep cfg st c1 = Sum.inl st1 ∧ st1.cur = Phase.waitingSpeech ∧
          st1.speechCount = 1 ∧ vadStep cfg st1 c2 = Sum.inl st2 ∧
          st2.cur = Phase.waitingSpeech ∧ st2.speechCount = 0) ∧
      (st.speechCount = 0 → st.threshold < c1.rms → st.threshold < c2.rms →
        ∃ st1 st2, vadStep cfg st c1 = Sum.inl st1 ∧ st1.cur = Phase.waitingSpeech ∧
          vadStep cfg st1 c2 = Sum.inl st2 ∧ st2.cur = Phase.inSpeech) := by
  intro cfg st c c1 c2 hcur
  refine ⟨?_, ?_, ?_⟩
  · intro hq
    exact ⟨_, vadStep_waiting_quiet cfg st c hcur hq, hcur, rfl⟩
  · intro hsc hl1 hq2
    have h1 := vadStep_waiting_loud_noOnset cfg st c1 hcur hl1
      (by simp [minSpeechChunks, hsc])
    have h2 := vadStep_waiting_quiet cfg
      { st with preRoll := trimPreRoll st.preRoll c1, speechCount := st.speechCount + 1 }
      c2 hcur hq2
    exact ⟨_, _, h1, hcur, by simp [hsc], h2, hcur, rfl⟩
  · intro hsc hl1 hl2
    have h1 := vadStep_waiting_loud_noOnset cfg st c1 hcur hl1
      (by simp [minSpeechChunks, hsc])
    have h2 := vadStep_waiting_onset cfg
      { st with preRoll := trimPreRoll st.preRoll c1, speechCount := st.speechCount + 1 }
      c2 hcur hl2 (by simp [minSpeechChunks])
    exact ⟨_, _, h1, hcur, h2, rfl⟩



theorem runVadChunks_append (cfg : VADConfig) : ∀ (xs ys : List Chunk) (st st' : VADState),
    runVadChunks cfg st xs = Sum.inl st' →
    runVadChunks cfg st (xs ++ ys) = runVadChunks cfg st' ys := by
  intro xs
  induction xs with
  | nil =>
    intro ys st st' h
    obtain rfl : st = st' := Sum.inl.inj h
    simp [runVadChunks]
  | cons x xs ih =>
    intro ys st st' h
    simp only [runVadChunks] at h
    cases hs : vadStep cfg st x with
    | inl st1 =>
      rw [hs] at h
      simp only [List.cons_append, runVadChunks, hs]
      exact ih ys st1 st' h
    | inr res =>
      rw [hs] at h
      exact Sum.noConfusion h

theorem vadStep_inSpeech_end (cfg : VADConfig) (st : VADState) (c : Chunk)
    (hcur : st.cur = Phase.inSpeech) (hq : c.rms ≤ st.threshold)
    (hcnt : cfg.silenceEndChunks ≤ st.silCount + 1) :
    vadStep cfg st c = Sum.inr (st.result ++ c.data) := by
  simp only [vadStep, hcur]
  rw [if_pos hq, if_pos (by omega : st.silCount + 1 ≥ cfg.silenceEndChunks)]

theorem vadStep_inSpeech_quiet (cfg : VADConfig) (st : VADState) (c : Chunk)
    (hcur : st.cur = Phase.inSpeech) (hq : c.rms ≤ st.threshold)
    (hcnt : st.silCount + 1 < cfg.silenceEndChunks) :
    vadStep cfg st c = Sum.inl { st with
      result := st.result ++ c.data, silCount := st.silCount + 1 } := by
  simp only [vadStep, hcur]
  rw [if_pos hq, if_neg (by omega : ¬ (st.silCount + 1 ≥ cfg.silenceEndChunks))]

theorem vadStep_inSpeech_loud (cfg : VADConfig) (st : VADState) (c : Chunk)
    (hcur : st.cur = Phase.inSpeech) (hl : st.threshold < c.rms) :
    vadStep cfg st c = Sum.inl { st with
      result := st.result ++ c.data, silCount := 0 } := by
  simp only [vadStep, hcur]
  rw [if_neg (not_le.mpr hl)]

theorem runQuiet (qs : List Chunk) : ∀ (cfg : VADConfig) (st : VADState),
    st.cur = Phase.inSpeech → (∀ q ∈ qs, q.rms ≤ st.threshold) →
    qs.length + st.silCount < cfg.silenceEndChunks →
    ∃ st', runVadChunks cfg st qs = Sum.inl st' ∧ st'.cur = Phase.inSpeech ∧
      st'.silCount = st.silCount + qs.length ∧ st'.threshold = st.threshold ∧
      st'.result = st.result ++ (qs.map Chunk.data).flatten := by
  induction qs with
  | nil =>
    intro cfg st h1 _ _
    exact ⟨st, rfl, h1, by simp, rfl, by simp⟩
  | cons q rest ih =>
    intro cfg st h1 hq hlen
    have hste := vadStep_inSpeech_quiet cfg st q h1 (hq q (by simp))
      (by simp at hlen; omega)
    obtain ⟨st', hrun, h2, h3, h4, h5⟩ := ih cfg
      { st with result := st.result ++ q.data, silCount := st.silCount + 1 }
      h1 (fun x hx => hq x (by simp [hx]))
      (by
        simp only [List.length_cons] at hlen
        show rest.length + (st.silCount + 1) < cfg.silenceEndChunks
        omega)
    refine ⟨st', ?_, h2, ?_, h4, ?_⟩
    · simp only [runVadChunks, hste]
      exact hrun
    · have h3' : st'.silCount = st.silCount + 1 + rest.length := h3
      simp only [List.length_cons]
      omega
    · have h5' : st'.result = (st.result ++ q.data) ++ (rest.map Chunk.data).flatten := h5
      rw [h5']
      simp

/-- C6: in InSpeech the session returns the accumulated buffer exactly when
the consecutive-quiet counter reaches the configured silence-end count — a
chunk is quiet iff its RMS is at or below the threshold (so a chunk exactly at
threshold counts as quiet), a loud chunk resets the quiet counter to zero, and
a quiet run shorter than the silence-end count interrupted by one loud chunk
leaves the session in speech with the counter back at zero. -/
theorem vad_silence_end_termination :
    ∀ (cfg : VADConfig) (st : VADState) (c : Chunk) (qs : List Chunk) (l : Chunk),
      st.cur = Phase.inSpeech →
      ((∃ res, vadStep cfg st c = Sum.inr res) ↔
        (c.rms ≤ st.threshold ∧ cfg.silenceEndChunks ≤ st.silCount + 1)) ∧
      (c.rms ≤ st.threshold → cfg.silenceEndChunks ≤ st.silCount + 1 →
        vadStep cfg st c = Sum.inr (st.result ++ c.data)) ∧
      (c.rms ≤ st.threshold → st.silCount + 1 < cfg.silenceEndChunks →
        vadStep cfg st c = Sum.inl { st with
          result := st.result ++ c.data, silCount := st.silCount + 1 }) ∧
      (st.threshold < c.rms →
        vadStep cfg st c = Sum.inl { st with
          result := st.result ++ c.data, silCount := 0 }) ∧
      ((∀ q ∈ qs, q.rms ≤ st.threshold) → qs.length + st.silCount < cfg.silenceEndChunks →
        st.threshold < l.rms →
        ∃ st', runVadChunks cfg st (qs ++ [l]) = Sum.inl st' ∧
          st'.cur = Phase.inSpeech ∧ st'.silCount = 0) := by
  intro cfg st c qs l hcur
  refine ⟨⟨?_, ?_⟩, fun hq hc => vadStep_inSpeech_end cfg st c hcur hq hc,
    fun hq hc => vadStep_inSpeech_quiet cfg st c hcur hq hc,
    fun hl => vadStep_inSpeech_loud cfg st c hcur hl, ?_⟩
  · rintro ⟨res, hres⟩
    by_cases hq : c.rms ≤ st.threshold
    · refine ⟨hq, ?_⟩
      by_contra hc
      rw [vadStep_inSpeech_quiet cfg st c hcur hq (by omega)] at hres
      exact Sum.noConfusion hres
    · rw [vadStep_inSpeech_loud cfg st c hcur (not_le.mp hq)] at hres
      exact Sum.noConfusion hres
  · rintro ⟨hq, hc⟩
    exact ⟨st.result ++ c.data, vadStep_inSpeech_end cfg st c hcur hq hc⟩
  · intro hqs hlen hl
    obtain ⟨st', hrun, h2, h3, h4, _⟩ := runQuiet qs cfg st hcur hqs hlen
    have hstep := vadStep_inSpeech_loud cfg st' l h2 (by rw [h4]; exact hl)
    refine ⟨{ st' with result := st'.result ++ l.data, silCount := 0 }, ?_, h2, rfl⟩
    rw [runVadChunks_append cfg qs [l] st st' hrun]
    simp only [runVadChunks, hstep]



/-- C8: bufferWithVAD returns a non-nil error (modelled as the boolean true)
iff the cancellation signal fired: a run whose consumed events contain no
cancellation returns false, observing cancellation returns whatever has
accumulated together with the error, and channel close as well as silence-end
termination return their buffer with no error. -/
theorem vad_error_iff_cancelled :
    ∀ cfg : VADConfig,
      (∀ (st : VADState) (evs : List VEvent), VEvent.cancel ∉ evs →
        (bufferWithVAD cfg st evs).2 = false) ∧
      (∀ (st : VADState) (evs : List VEvent),
        bufferWithVAD cfg st (VEvent.cancel :: evs) = (st.result, true)) ∧
      (∀ st : VADState, bufferWithVAD cfg st [] = (st.result, false)) ∧
      (∀ (st : VADState) (c : Chunk) (evs : List VEvent) (res : List ℕ),
        vadStep cfg st c = Sum.inr res →
        bufferWithVAD cfg st (VEvent.chunk c :: evs) = (res, false)) := by
  intro cfg
  refine ⟨?_, fun st evs => rfl, fun st => rfl, ?_⟩
  · intro st evs
    induction evs generalizing st with
    | nil => intro _; rfl
    | cons e rest ih =>
      intro hnc
      cases e with
      | cancel => exact absurd (by simp) hnc
      | chunk c =>
        simp only [bufferWithVAD]
        cases hs : vadStep cfg st c with
        | inl st1 => exact ih st1 (fun hm => hnc (by simp [hm]))
        | inr res => rfl
  · intro st c evs res hs
    simp only [bufferWithVAD, hs]

/-- C10: the threshold is written exactly once per session. A step from any
state past calibration keeps the threshold unchanged and never returns to the
calibrating phase; a calibration step short of the window keeps the threshold
and stays calibrating; the single step that completes the window moves to
WaitingForSpeech and sets the threshold to the calibration-window mean RMS
times the sensitivity multiplier, raised to 150 when smaller. -/
theorem vad_threshold_write_once :
    ∀ (cfg : VADConfig) (st : VADState) (c : Chunk) (st' : VADState),
      vadStep cfg st c = Sum.inl st' →
      (st.cur ≠ Phase.calibrating → st'.threshold = st.threshold ∧
        st'.cur ≠ Phase.calibrating) ∧
      (st.cur = Phase.calibrating → st.calibCount + 1 < calibChunks →
        st'.threshold = st.threshold ∧ st'.cur = Phase.calibrating) ∧
      (st.cur = Phase.calibrating → calibChunks ≤ st.calibCount + 1 →
        st'.cur = Phase.waitingSpeech ∧
        st'.threshold =
          (if ((st.calibSum + c.rms) / ((st.calibCount : ℚ) + 1)) * cfg.thresholdMul < 150
           then (150 : ℚ)
           else ((st.calibSum + c.rms) / ((st.calibCount : ℚ) + 1)) * cfg.thresholdMul)) := by
  intro cfg st c st' hstep
  refine ⟨?_, ?_, ?_⟩
  · intro hne
    cases hcur : st.cur with
    | calibrating => exact absurd hcur hne
    | waitingSpeech =>
      simp only [vadStep, hcur] at hstep
      split_ifs at hstep <;>
        (obtain rfl := Sum.inl.inj hstep; exact ⟨rfl, by simp⟩)
    | inSpeech =>
      simp only [vadStep, hcur] at hstep
      split_ifs at hstep <;> first
        | exact Sum.noConfusion hstep
        | (obtain rfl := Sum.inl.inj hstep; exact ⟨rfl, by simp⟩)
  · intro hcur hlt
    simp only [vadStep, hcur] at hstep
    rw [if_neg (by omega : ¬ (st.calibCount + 1 ≥ calibChunks))] at hstep
    obtain rfl := Sum.inl.inj hstep
    exact ⟨rfl, rfl⟩
  · intro hcur hge
    simp only [vadStep, hcur] at hstep
    rw [if_pos (by omega : st.calibCount + 1 ≥ calibChunks)] at hstep
    obtain rfl := Sum.inl.inj hstep
    constructor
    · rfl
    · show (if (st.calibSum + c.rms) / ((st.calibCount + 1 : ℕ) : ℚ) * cfg.thresholdMul < 150
          then (150 : ℚ)
          else (st.calibSum + c.rms) / ((st.calibCount + 1 : ℕ) : ℚ) * cfg.thresholdMul) = _
      push_cast
      rfl




theorem takeLast_nil (n : ℕ) : takeLast n [] = [] := by
  simp [takeLast]

theorem trim_takeLast (X : List Chunk) (c : Chunk) :
    trimPreRoll (takeLast preRollLen X) c = takeLast preRollLen (X ++ [c]) := by
  unfold trimPreRoll takeLast preRollLen
  by_cases h : 4 ≤ X.length
  · have hlen : (X.drop (X.length - 4)).length = 4 := by
      simp [List.length_drop]; omega
    rw [if_pos (by simp [List.length_append, hlen])]
    have e1 : X.drop (X.length - 4) ++ [c] = (X ++ [c]).drop (X.length - 4) :=
      (List.drop_append_of_le_length (by omega)).symm
    rw [e1, List.drop_drop]
    congr 1
    simp only [List.length_append, List.length_cons, List.length_nil]
    omega
  · have h0 : X.length - 4 = 0 := by omega
    rw [h0, List.drop_zero]
    rw [if_neg (by simp only [List.length_append, List.length_cons, List.length_nil]; omega)]
    have h1 : (X ++ [c]).length - 4 = 0 := by
      simp only [List.length_append, List.length_cons, List.length_nil]; omega
    rw [h1, List.drop_zero]

theorem vadStep_inSpeech_cur (cfg : VADConfig) (st : VADState) (c : Chunk) (st' : VADState)
    (hcur : st.cur = Phase.inSpeech) (h : vadStep cfg st c = Sum.inl st') :
    st'.cur = Phase.inSpeech := by
  simp only [vadStep, hcur] at h
  split_ifs at h <;> first
    | exact Sum.noConfusion h
    | (obtain rfl := Sum.inl.inj h; rfl)

theorem runVadChunks_inSpeech_cur (qs : List Chunk) :
    ∀ (cfg : VADConfig) (st st' : VADState), st.cur = Phase.inSpeech →
      runVadChunks cfg st qs = Sum.inl st' → st'.cur = Phase.inSpeech := by
  induction qs with
  | nil =>
    intro cfg st st' h hr
    obtain rfl := Sum.inl.inj hr
    exact h
  | cons q rest ih =>
    intro cfg st st' h hr
    simp only [runVadChunks] at hr
    cases hs : vadStep cfg st q with
    | inl st1 =>
      rw [hs] at hr
      exact ih cfg st1 st' (vadStep_inSpeech_cur cfg st q st1 h hs) hr
    | inr res =>
      rw [hs] at hr
      exact Sum.noConfusion hr

theorem runWaiting_takeLast (qs : List Chunk) :
    ∀ (cfg : VADConfig) (st st' : VADState) (P : List Chunk),
      st.cur = Phase.waitingSpeech → st.preRoll = takeLast preRollLen P →
      runVadChunks cfg st qs = Sum.inl st' → st'.cur = Phase.waitingSpeech →
      st'.preRoll = takeLast preRollLen (P ++ qs) ∧ st'.result = st.result ∧
        st'.threshold = st.threshold := by
  induction qs with
  | nil =>
    intro cfg st st' P hcur hpr hrun _
    obtain rfl := Sum.inl.inj hrun
    refine ⟨?_, rfl, rfl⟩
    simpa using hpr
  | cons q rest ih =>
    intro cfg st st' P hcur hpr hrun hcur'
    simp only [runVadChunks] at hrun
    cases hs : vadStep cfg st q with
    | inr res =>
      rw [hs] at hrun
      exact Sum.noConfusion hrun
    | inl st1 =>
      rw [hs] at hrun
      by_cases hq : q.rms ≤ st.threshold
      · rw [vadStep_waiting_quiet cfg st q hcur hq] at hs
        have e := (Sum.inl.inj hs).symm
        have hc1 : st1.cur = Phase.waitingSpeech := by rw [e]; exact hcur
        have hp1 : st1.preRoll = takeLast preRollLen (P ++ [q]) := by
          rw [e]
          show trimPreRoll st.preRoll q = _
          rw [hpr, trim_takeLast]
        obtain ⟨h1, h2, h3⟩ := ih cfg st1 st' (P ++ [q]) hc1 hp1 hrun hcur'
        refine ⟨?_, ?_, ?_⟩
        · rw [h1]; simp
        · rw [h2, e]
        · rw [h3, e]
      · by_cases hcnt : st.speechCount + 1 < minSpeechChunks
        · rw [vadStep_waiting_loud_noOnset cfg st q hcur (not_le.mp hq) hcnt] at hs
          have e := (Sum.inl.inj hs).symm
          have hc1 : st1.cur = Phase.waitingSpeech := by rw [e]; exact hcur
          have hp1 : st1.preRoll = takeLast preRollLen (P ++ [q]) := by
            rw [e]
            show trimPreRoll st.preRoll q = _
            rw [hpr, trim_takeLast]
          obtain ⟨h1, h2, h3⟩ := ih cfg st1 st' (P ++ [q]) hc1 hp1 hrun hcur'
          refine ⟨?_, ?_, ?_⟩
          · rw [h1]; simp
          · rw [h2, e]
          · rw [h3, e]
        · rw [vadStep_waiting_onset cfg st q hcur (not_le.mp hq) (by omega)] at hs
          have e := (Sum.inl.inj hs).symm
          have hc1 : st1.cur = Phase.inSpeech := by rw [e]
          have hsp : st'.cur = Phase.inSpeech :=
            runVadChunks_inSpeech_cur rest cfg st1 st' hc1 hrun
          rw [hsp] at hcur'
          exact Phase.noConfusion hcur'



theorem vadStep_result_extends (cfg : VADConfig) (st : VADState) (c : Chunk) :
    (∀ st', vadStep cfg st c = Sum.inl st' → ∃ u, st'.result = st.result ++ u) ∧
    (∀ res, vadStep cfg st c = Sum.inr res → ∃ u, res = st.result ++ u) := by
  constructor
  · intro st' h
    cases hcur : st.cur <;> simp only [vadStep, hcur] at h <;> split_ifs at h <;> first
      | exact Sum.noConfusion h
      | (obtain rfl := Sum.inl.inj h
         first
           | exact ⟨_, rfl⟩
           | exact ⟨[], by simp⟩)
  · intro res h
    cases hcur : st.cur <;> simp only [vadStep, hcur] at h <;> split_ifs at h <;> first
      | exact Sum.noConfusion h
      | exact ⟨_, (Sum.inr.inj h).symm⟩

theorem bufferWithVAD_result_extends (cfg : VADConfig) :
    ∀ (evs : List VEvent) (st : VADState),
      ∃ t, (bufferWithVAD cfg st evs).1 = st.result ++ t := by
  intro evs
  induction evs with
  | nil => intro st; exact ⟨[], by simp [bufferWithVAD]⟩
  | cons e rest ih =>
    intro st
    cases e with
    | cancel => exact ⟨[], by simp [bufferWithVAD]⟩
    | chunk c =>
      cases hs : vadStep cfg st c with
      | inl st1 =>
        obtain ⟨u, hu⟩ := (vadStep_result_extends cfg st c).1 st1 hs
        obtain ⟨t, ht⟩ := ih st1
        refine ⟨u ++ t, ?_⟩
        show (bufferWithVAD cfg st (VEvent.chunk c :: rest)).1 = _
        simp only [bufferWithVAD, hs]
        rw [ht, hu, List.append_assoc]
      | inr res =>
        obtain ⟨u, hu⟩ := (vadStep_result_extends cfg st c).2 res hs
        refine ⟨u, ?_⟩
        show (bufferWithVAD cfg st (VEvent.chunk c :: rest)).1 = _
        simp only [bufferWithVAD, hs]
        exact hu

/-- C7: from a fresh waiting state, after any chunk sequence that keeps the
machine waiting with a reset loud counter, two triggering loud chunks flush
exactly the trimmed pre-roll — the at most preRollLen = 4 most recent chunks
seen while waiting, the triggering chunks included as its tail — into the
output in chronological order with nothing repeated or reordered: the buffer
at onset is the previous output followed by the data of takeLast 4 of the
chunks seen, and every later buffer only extends that prefix. -/
theorem vad_preroll_order :
    ∀ (cfg : VADConfig) (st st' : VADState) (qs : List Chunk) (l1 l2 : Chunk),
      st.cur = Phase.waitingSpeech → st.preRoll = [] →
      runVadChunks cfg st qs = Sum.inl st' →
      st'.cur = Phase.waitingSpeech → st'.speechCount = 0 →
      st.threshold < l1.rms → st.threshold < l2.rms →
      ∃ st1 st2,
        vadStep cfg st' l1 = Sum.inl st1 ∧ st1.cur = Phase.waitingSpeech ∧
        vadStep cfg st1 l2 = Sum.inl st2 ∧ st2.cur = Phase.inSpeech ∧
        st2.result = st.result ++
          ((takeLast preRollLen (qs ++ [l1, l2])).map Chunk.data).flatten ∧
        (∀ evs, ∃ tail, (bufferWithVAD cfg st2 evs).1 = st2.result ++ tail) := by
  intro cfg st st' qs l1 l2 hcur hpr hrun hcur' hsc' hl1 hl2
  obtain ⟨hpr', hres', hthr'⟩ := runWaiting_takeLast qs cfg st st' [] hcur
    (by rw [hpr, takeLast_nil]) hrun hcur'
  have hpr2 : st'.preRoll = takeLast preRollLen qs := by simpa using hpr'
  have h1 := vadStep_waiting_loud_noOnset cfg st' l1 hcur'
    (by rw [hthr']; exact hl1) (by simp [minSpeechChunks, hsc'])
  have h2 := vadStep_waiting_onset cfg
    { st' with preRoll := trimPreRoll st'.preRoll l1, speechCount := st'.speechCount + 1 }
    l2 hcur' (by show st'.threshold < l2.rms; rw [hthr']; exact hl2)
    (by show minSpeechChunks ≤ st'.speechCount + 1 + 1; simp [minSpeechChunks, hsc'])
  refine ⟨_, _, h1, hcur', h2, rfl, ?_, ?_⟩
  · show st'.result ++ ((trimPreRoll (trimPreRoll st'.preRoll l1) l2).map Chunk.data).flatten = _
    rw [hres', hpr2, trim_takeLast, trim_takeLast]
    rw [List.append_assoc]
    rfl
  · intro evs
    exact bufferWithVAD_result_extends cfg evs _



theorem trim_exists_drop (pr : List Chunk) (c : Chunk) :
    ∃ d, d ≤ 1 ∧ trimPreRoll pr c = (pr ++ [c]).drop d := by
  unfold trimPreRoll
  by_cases h : (pr ++ [c]).length > preRollLen
  · exact ⟨1, le_refl 1, by rw [if_pos h]⟩
  · exact ⟨0, Nat.zero_le 1, by rw [if_neg h, List.drop_zero]⟩

theorem vadStep_inv (cfg : VADConfig) (st : VADState) (c : Chunk) (seen : List Chunk)
    (hinv : VADInv st seen) :
    (∀ st', vadStep cfg st c = Sum.inl st' → VADInv st' (seen ++ [c])) ∧
    (∀ res, vadStep cfg st c = Sum.inr res →
      ∃ i, calibChunks ≤ i ∧ i ≤ (seen ++ [c]).length ∧
        res = (((seen ++ [c]).drop i).map Chunk.data).flatten) := by
  obtain ⟨hC, hW, hI⟩ := hinv
  constructor
  · intro st' h
    cases hcur : st.cur with
    | calibrating =>
      obtain ⟨hres, hpr, hcc⟩ := hC hcur
      simp only [vadStep, hcur] at h
      split_ifs at h with hdone hthr
      · obtain rfl := Sum.inl.inj h
        refine ⟨fun hc => Phase.noConfusion hc, fun _ => ⟨hres, (seen ++ [c]).length,
          ?_, le_refl _, ?_⟩, fun hi => Phase.noConfusion hi⟩
        · simp only [calibChunks] at hdone ⊢
          simp only [List.length_append, List.length_cons, List.length_nil]
          omega
        · show st.preRoll = _
          rw [hpr, List.drop_length]
      · obtain rfl := Sum.inl.inj h
        refine ⟨fun hc => Phase.noConfusion hc, fun _ => ⟨hres, (seen ++ [c]).length,
          ?_, le_refl _, ?_⟩, fun hi => Phase.noConfusion hi⟩
        · simp only [calibChunks] at hdone ⊢
          simp only [List.length_append, List.length_cons, List.length_nil]
          omega
        · show st.preRoll = _
          rw [hpr, List.drop_length]
      · obtain rfl := Sum.inl.inj h
        refine ⟨fun _ => ⟨hres, hpr, ?_⟩, fun hw => Phase.noConfusion hw,
          fun hi => Phase.noConfusion hi⟩
        show st.calibCount + 1 = _
        rw [hcc]
        simp
    | waitingSpeech =>
      obtain ⟨hres, k, hk4, hkle, hpr⟩ := hW hcur
      have hdropc : seen.drop k ++ [c] = (seen ++ [c]).drop k :=
        (List.drop_append_of_le_length hkle).symm
      by_cases hq : c.rms ≤ st.threshold
      · rw [vadStep_waiting_quiet cfg st c hcur hq] at h
        obtain rfl := Sum.inl.inj h
        obtain ⟨d, hd1, hdeq⟩ := trim_exists_drop st.preRoll c
        refine ⟨fun hc => Phase.noConfusion (hcur.symm.trans hc),
          fun _ => ⟨hres, k + d, by omega, ?_, ?_⟩,
          fun hi => Phase.noConfusion (hcur.symm.trans hi)⟩
        · simp only [List.length_append, List.length_cons, List.length_nil]
          omega
        · show trimPreRoll st.preRoll c = _
          rw [hdeq, hpr, hdropc, List.drop_drop]
      · by_cases hcnt : st.speechCount + 1 < minSpeechChunks
        · rw [vadStep_waiting_loud_noOnset cfg st c hcur (not_le.mp hq) hcnt] at h
          obtain rfl := Sum.inl.inj h
          obtain ⟨d, hd1, hdeq⟩ := trim_exists_drop st.preRoll c
          refine ⟨fun hc => Phase.noConfusion (hcur.symm.trans hc),
            fun _ => ⟨hres, k + d, by omega, ?_, ?_⟩,
            fun hi => Phase.noConfusion (hcur.symm.trans hi)⟩
          · simp only [List.length_append, List.length_cons, List.length_nil]
            omega
          · show trimPreRoll st.preRoll c = _
            rw [hdeq, hpr, hdropc, List.drop_drop]
        · rw [vadStep_waiting_onset cfg st c hcur (not_le.mp hq) (by omega)] at h
          obtain rfl := Sum.inl.inj h
          obtain ⟨d, hd1, hdeq⟩ := trim_exists_drop st.preRoll c
          refine ⟨fun hc => Phase.noConfusion hc, fun hw => Phase.noConfusion hw,
            fun _ => ⟨k + d, by omega, ?_, ?_⟩⟩
          · simp only [List.length_append, List.length_cons, List.length_nil]
            omega
          · show st.result ++ ((trimPreRoll st.preRoll c).map Chunk.data).flatten = _
            rw [hres, hdeq, hpr, hdropc, List.drop_drop]
            rw [List.nil_append]
    | inSpeech =>
      obtain ⟨i, hi4, hile, hres⟩ := hI hcur
      have hdropc : (seen ++ [c]).drop i = seen.drop i ++ [c] :=
        List.drop_append_of_le_length hile
      by_cases hq : c.rms ≤ st.threshold
      · by_cases hcnt : cfg.silenceEndChunks ≤ st.silCount + 1
        · rw [vadStep_inSpeech_end cfg st c hcur hq hcnt] at h
          exact Sum.noConfusion h
        · rw [vadStep_inSpeech_quiet cfg st c hcur hq (by omega)] at h
          obtain rfl := Sum.inl.inj h
          refine ⟨fun hc => Phase.noConfusion (hcur.symm.trans hc),
            fun hw => Phase.noConfusion (hcur.symm.trans hw),
            fun _ => ⟨i, hi4, ?_, ?_⟩⟩
          · simp only [List.length_append, List.length_cons, List.length_nil]
            omega
          · show st.result ++ c.data = _
            rw [hres, hdropc]
            simp
      · rw [vadStep_inSpeech_loud cfg st c hcur (not_le.mp hq)] at h
        obtain rfl := Sum.inl.inj h
        refine ⟨fun hc => Phase.noConfusion (hcur.symm.trans hc),
          fun hw => Phase.noConfusion (hcur.symm.trans hw),
          fun _ => ⟨i, hi4, ?_, ?_⟩⟩
        · simp only [List.length_append, List.length_cons, List.length_nil]
          omega
        · show st.result ++ c.data = _
          rw [hres, hdropc]
          simp
  · intro res h
    cases hcur : st.cur with
    | calibrating =>
      simp only [vadStep, hcur] at h
      split_ifs at h
    | waitingSpeech =>
      simp only [vadStep, hcur] at h
      split_ifs at h
    | inSpeech =>
      obtain ⟨i, hi4, hile, hres⟩ := hI hcur
      have hdropc : (seen ++ [c]).drop i = seen.drop i ++ [c] :=
        List.drop_append_of_le_length hile
      by_cases hq : c.rms ≤ st.threshold
      · by_cases hcnt : cfg.silenceEndChunks ≤ st.silCount + 1
        · rw [vadStep_inSpeech_end cfg st c hcur hq hcnt] at h
          obtain rfl := Sum.inr.inj h
          refine ⟨i, hi4, ?_, ?_⟩
          · simp only [List.length_append, List.length_cons, List.length_nil]
            omega
          · rw [hres, hdropc]
            simp
        · rw [vadStep_inSpeech_quiet cfg st c hcur hq (by omega)] at h
          exact Sum.noConfusion h
      · rw [vadStep_inSpeech_loud cfg st c hcur (not_le.mp hq)] at h
        exact Sum.noConfusion h



theorem VADInv_result_repr (st : VADState) (seen : List Chunk) (hinv : VADInv st seen)
    (tail : List Chunk) :
    ∃ i j, calibChunks ≤ i ∧
      st.result = ((((seen ++ tail).drop i).take j).map Chunk.data).flatten := by
  obtain ⟨hC, hW, hI⟩ := hinv
  cases hcur : st.cur with
  | calibrating => exact ⟨calibChunks, 0, le_refl _, by simp [(hC hcur).1]⟩
  | waitingSpeech => exact ⟨calibChunks, 0, le_refl _, by simp [(hW hcur).1]⟩
  | inSpeech =>
    obtain ⟨i, hi4, hile, hres⟩ := hI hcur
    refine ⟨i, seen.length - i, hi4, ?_⟩
    rw [hres]
    rw [List.drop_append_of_le_length hile]
    rw [List.take_left' (by rw [List.length_drop])]

theorem chunksOf_cons_chunk (c : Chunk) (rest : List VEvent) (seen : List Chunk) :
    seen ++ chunksOf (VEvent.chunk c :: rest) = (seen ++ [c]) ++ chunksOf rest := by
  simp [chunksOf]

theorem bufferWithVAD_inv (cfg : VADConfig) :
    ∀ (evs : List VEvent) (st : VADState) (seen : List Chunk), VADInv st seen →
      ∃ i j, calibChunks ≤ i ∧
        (bufferWithVAD cfg st evs).1 =
          ((((seen ++ chunksOf evs).drop i).take j).map Chunk.data).flatten := by
  intro evs
  induction evs with
  | nil =>
    intro st seen hinv
    exact VADInv_result_repr st seen hinv (chunksOf [])
  | cons e rest ih =>
    intro st seen hinv
    cases e with
    | cancel =>
      exact VADInv_result_repr st seen hinv (chunksOf (VEvent.cancel :: rest))
    | chunk c =>
      cases hs : vadStep cfg st c with
      | inl st1 =>
        obtain ⟨i, j, hi, hrepr⟩ := ih st1 (seen ++ [c])
          ((vadStep_inv cfg st c seen hinv).1 st1 hs)
        refine ⟨i, j, hi, ?_⟩
        show (bufferWithVAD cfg st (VEvent.chunk c :: rest)).1 = _
        simp only [bufferWithVAD, hs]
        rw [chunksOf_cons_chunk]
        exact hrepr
      | inr res =>
        obtain ⟨i, hi4, hile, hres⟩ := (vadStep_inv cfg st c seen hinv).2 res hs
        refine ⟨i, (seen ++ [c]).length - i, hi4, ?_⟩
        show (bufferWithVAD cfg st (VEvent.chunk c :: rest)).1 = _
        simp only [bufferWithVAD, hs]
        rw [chunksOf_cons_chunk]
        rw [List.drop_append_of_le_length hile]
        rw [List.take_left' (by rw [List.length_drop])]
        exact hres

theorem vadInit_inv : VADInv vadInit [] :=
  ⟨fun _ => ⟨rfl, rfl, rfl⟩, fun hw => Phase.noConfusion hw, fun hi => Phase.noConfusion hi⟩

/-- C9: on every input event sequence and every termination path, the
returned buffer is the flattened data of one contiguous run of input chunks
in arrival order — a drop-then-take segment of the chunk sequence — so each
input chunk appears at most once, and the segment starts at index at least
calibChunks = 4: chunks consumed during calibration never appear. -/
theorem vad_output_contiguous_segment :
    ∀ (cfg : VADConfig) (evs : List VEvent),
      ∃ i j, calibChunks ≤ i ∧
        (bufferWithVAD cfg vadInit evs).1 =
          ((((chunksOf evs).drop i).take j).map Chunk.data).flatten := by
  intro cfg evs
  obtain ⟨i, j, hi, h⟩ := bufferWithVAD_inv cfg evs vadInit [] vadInit_inv
  exact ⟨i, j, hi, by simpa using h⟩


/-- Witness for C5 at the concrete post-calibration state (threshold 150) with
quiet (RMS 100) and loud (RMS 400, 500) chunks. -/
theorem vad_onset_debounce_witness :
    (∃ st', vadStep sampleCfg sampleWaiting quietChunk = Sum.inl st' ∧
      st'.cur = Phase.waitingSpeech ∧ st'.speechCount = 0) ∧
    (∃ st1 st2, vadStep sampleCfg sampleWaiting loudChunk = Sum.inl st1 ∧
      st1.cur = Phase.waitingSpeech ∧ st1.speechCount = 1 ∧
      vadStep sampleCfg st1 quietChunk = Sum.inl st2 ∧
      st2.cur = Phase.waitingSpeech ∧ st2.speechCount = 0) ∧
    (∃ st1 st2, vadStep sampleCfg sampleWaiting loudChunk = Sum.inl st1 ∧
      st1.cur = Phase.waitingSpeech ∧ vadStep sampleCfg st1 loud2Chunk = Sum.inl st2 ∧
      st2.cur = Phase.inSpeech) :=
  ⟨(vad_onset_debounce sampleCfg sampleWaiting quietChunk loudChunk loud2Chunk rfl).1
      (by norm_num [quietChunk, sampleWaiting]),
   (vad_onset_debounce sampleCfg sampleWaiting quietChunk loudChunk quietChunk rfl).2.1
      rfl (by norm_num [loudChunk, sampleWaiting]) (by norm_num [quietChunk, sampleWaiting]),
   (vad_onset_debounce sampleCfg sampleWaiting quietChunk loudChunk loud2Chunk rfl).2.2
      rfl (by norm_num [loudChunk, sampleWaiting]) (by norm_num [loud2Chunk, sampleWaiting])⟩

/-- Witness for C6 at concrete in-speech states with silence-end count 2. -/
theorem vad_silence_end_termination_witness :
    ((∃ res, vadStep sampleCfg sampleInSpeech quietChunk = Sum.inr res) ↔
      (quietChunk.rms ≤ sampleInSpeech.threshold ∧
        sampleCfg.silenceEndChunks ≤ sampleInSpeech.silCount + 1)) ∧
    (vadStep sampleCfg sampleInSpeechSil1 quietChunk =
      Sum.inr (sampleInSpeechSil1.result ++ quietChunk.data)) ∧
    (vadStep sampleCfg sampleInSpeech quietChunk = Sum.inl { sampleInSpeech with
      result := sampleInSpeech.result ++ quietChunk.data,
      silCount := sampleInSpeech.silCount + 1 }) ∧
    (vadStep sampleCfg sampleInSpeech loudChunk = Sum.inl { sampleInSpeech with
      result := sampleInSpeech.result ++ loudChunk.data, silCount := 0 }) ∧
    (∃ st', runVadChunks sampleCfg sampleInSpeech ([quietChunk] ++ [loudChunk]) = Sum.inl st' ∧
      st'.cur = Phase.inSpeech ∧ st'.silCount = 0) :=
  ⟨(vad_silence_end_termination sampleCfg sampleInSpeech quietChunk [] quietChunk rfl).1,
   (vad_silence_end_termination sampleCfg sampleInSpeechSil1 quietChunk [] quietChunk rfl).2.1
      (by norm_num [quietChunk, sampleInSpeechSil1, sampleInSpeech])
      (by norm_num [sampleCfg, sampleInSpeechSil1, sampleInSpeech]),
   (vad_silence_end_termination sampleCfg sampleInSpeech quietChunk [] quietChunk rfl).2.2.1
      (by norm_num [quietChunk, sampleInSpeech]) (by norm_num [sampleCfg, sampleInSpeech]),
   (vad_silence_end_termination sampleCfg sampleInSpeech loudChunk [] quietChunk rfl).2.2.2.1
      (by norm_num [loudChunk, sampleInSpeech]),
   (vad_silence_end_termination sampleCfg sampleInSpeech quietChunk [quietChunk] loudChunk
      rfl).2.2.2.2
      (by
        intro q hq
        simp only [List.mem_singleton] at hq
        subst hq
        norm_num [quietChunk, sampleInSpeech])
      (by norm_num [sampleCfg, sampleInSpeech])
      (by norm_num [loudChunk, sampleInSpeech])⟩

/-- Witness for C7: one quiet chunk while waiting, then the two loud triggers. -/
theorem vad_preroll_order_witness :
    ∃ st1 st2,
      vadStep sampleCfg { sampleWaiting with preRoll := [quietChunk] } loudChunk =
        Sum.inl st1 ∧
      st1.cur = Phase.waitingSpeech ∧
      vadStep sampleCfg st1 loud2Chunk = Sum.inl st2 ∧ st2.cur = Phase.inSpeech ∧
      st2.result = sampleWaiting.result ++
        ((takeLast preRollLen ([quietChunk] ++ [loudChunk, loud2Chunk])).map
          Chunk.data).flatten ∧
      (∀ evs, ∃ tail, (bufferWithVAD sampleCfg st2 evs).1 = st2.result ++ tail) :=
  vad_preroll_order sampleCfg sampleWaiting { sampleWaiting with preRoll := [quietChunk] }
    [quietChunk] loudChunk loud2Chunk rfl rfl rfl rfl rfl
    (by norm_num [loudChunk, sampleWaiting]) (by norm_num [loud2Chunk, sampleWaiting])

/-- Witness for C8 at concrete event lists. -/
theorem vad_error_iff_cancelled_witness :
    (bufferWithVAD sampleCfg sampleWaiting [VEvent.chunk quietChunk]).2 = false ∧
    bufferWithVAD sampleCfg sampleWaiting (VEvent.cancel :: []) =
      (sampleWaiting.result, true) ∧
    bufferWithVAD sampleCfg sampleWaiting [] = (sampleWaiting.result, false) ∧
    bufferWithVAD sampleCfg sampleInSpeechSil1 (VEvent.chunk quietChunk :: []) =
      (sampleInSpeechSil1.result ++ quietChunk.data, false) :=
  ⟨(vad_error_iff_cancelled sampleCfg).1 sampleWaiting [VEvent.chunk quietChunk] (by simp),
   (vad_error_iff_cancelled sampleCfg).2.1 sampleWaiting [],
   (vad_error_iff_cancelled sampleCfg).2.2.1 sampleWaiting,
   (vad_error_iff_cancelled sampleCfg).2.2.2 sampleInSpeechSil1 quietChunk [] _ rfl⟩

/-- Witness for C10: a waiting step, an early calibration step, and the step
completing the calibration window. -/
theorem vad_threshold_write_once_witness :
    (∃ st', vadStep sampleCfg sampleWaiting quietChunk = Sum.inl st' ∧
      st'.threshold = sampleWaiting.threshold ∧ st'.cur ≠ Phase.calibrating) ∧
    (∃ st', vadStep sampleCfg vadInit quietChunk = Sum.inl st' ∧
      st'.threshold = vadInit.threshold ∧ st'.cur = Phase.calibrating) ∧
    (∃ st', vadStep sampleCfg sampleCalib3 loudChunk = Sum.inl st' ∧
      st'.cur = Phase.waitingSpeech ∧
      st'.threshold =
        (if ((sampleCalib3.calibSum + loudChunk.rms) / ((sampleCalib3.calibCount : ℚ) + 1)) *
            sampleCfg.thresholdMul < 150 then (150 : ℚ)
         else ((sampleCalib3.calibSum + loudChunk.rms) / ((sampleCalib3.calibCount : ℚ) + 1)) *
            sampleCfg.thresholdMul)) := by
  refine ⟨?_, ?_, ?_⟩
  · have hstep := vadStep_waiting_quiet sampleCfg sampleWaiting quietChunk rfl
      (by norm_num [quietChunk, sampleWaiting])
    obtain ⟨ht, hc⟩ := (vad_threshold_write_once sampleCfg sampleWaiting quietChunk _ hstep).1
      (by simp [sampleWaiting])
    exact ⟨_, hstep, ht, hc⟩
  · have hstep : vadStep sampleCfg vadInit quietChunk = Sum.inl
        { cur := Phase.calibrating, calibCount := 1, calibSum := 100, threshold := 0,
          speechCount := 0, silCount := 0, preRoll := [], result := [] } := by
      simp only [vadStep, vadInit, calibChunks]
      norm_num [quietChunk]
    obtain ⟨ht, hc⟩ := (vad_threshold_write_once sampleCfg vadInit quietChunk _ hstep).2.1
      rfl (by norm_num [vadInit, calibChunks])
    exact ⟨_, hstep, ht, hc⟩
  · have hstep : vadStep sampleCfg sampleCalib3 loudChunk = Sum.inl
        { cur := Phase.waitingSpeech, calibCount := 4, calibSum := 700, threshold := 875 / 2,
          speechCount := 0, silCount := 0, preRoll := [], result := [] } := by
      simp only [vadStep, sampleCalib3, vadInit, calibChunks]
      norm_num [loudChunk, sampleCfg]
    obtain ⟨hc, ht⟩ := (vad_threshold_write_once sampleCfg sampleCalib3 loudChunk _ hstep).2.2
      rfl (by norm_num [sampleCalib3, vadInit, calibChunks])
    exact ⟨_, hstep, hc, ht⟩

end Gotalk
